import Mathlib

set_option maxRecDepth 10000
set_option linter.unnecessarySeqFocus false

/-!
Verification of the JSR311-style route and dispatcher selection algorithm
(file jsr311.go of the repository).  The Go code compiles URI templates to
regular expressions of the fixed shape

  /seg1/seg2/.../segn(/.*)?

where each segment is either a QuoteMeta-escaped literal or the variable
group ([^/]+?), and then matches them with regexp.FindStringSubmatch
(leftmost-first, unanchored).  The embedding below keeps the exact string
building of templateToRegularExpression and models the matching semantics
of the generated expressions directly on the token structure.
-/

/-- Mirrors strings.Split(template, "/") from the Go standard library:
splits a character list on the '/' separator, keeping empty pieces. -/
def splitSlash : List Char → List (List Char)
  | [] => [[]]
  | c :: rest =>
    if c = '/' then [] :: splitSlash rest
    else
      match splitSlash rest with
      | [] => [[c]]
      | h :: t => (c :: h) :: t

/-- The characters escaped by Go regexp.QuoteMeta. -/
def isSpecialChar (c : Char) : Bool :=
  c = '\\' || c = '.' || c = '+' || c = '*' || c = '?' || c = '(' || c = ')' ||
  c = '|' || c = '[' || c = ']' || c = '\x7b' || c = '\x7d' || c = '^' || c = '$'

/-- Mirrors Go regexp.QuoteMeta: every special character is preceded by a
backslash. -/
def quoteMeta : List Char → List Char
  | [] => []
  | c :: rest =>
    if isSpecialChar c then '\\' :: c :: quoteMeta rest else c :: quoteMeta rest

/-- Mirrors strings.TrimRight(s, "/"): removes all trailing '/' characters. -/
def trimRightSlash (l : List Char) : List Char :=
  (l.reverse.dropWhile (fun c => c = '/')).reverse

/-- Mirrors strings.HasPrefix(each, "\x7b") on a segment. -/
def isVarSeg (seg : List Char) : Bool :=
  match seg with
  | c :: _ => c = '\x7b'
  | [] => false

/-- A token of the generated expression: a QuoteMeta-escaped literal path
segment, or the variable group ([^/]+?). -/
inductive Tok where
  | lit : List Char → Tok
  | var : Tok
deriving DecidableEq, Repr, Inhabited

/-- Classifies one segment of a template the way the loop of
templateToRegularExpression does: empty segments are skipped, a segment
starting with a left brace is a variable, anything else is a literal. -/
def segTok (seg : List Char) : Option Tok :=
  if seg = [] then none
  else if isVarSeg seg then some Tok.var
  else some (Tok.lit seg)

/-- The classified non-empty segments of a template. -/
def toks (template : List Char) : List Tok :=
  (splitSlash template).filterMap segTok

/-- The variable group written by the Go code. -/
def varPattern : List Char := "([^/]+?)".data

/-- The trailing remainder group appended by the Go code. -/
def remPattern : List Char := "(/.*)?".data

/-- The expression fragment one token contributes to the buffer:
a '/' followed by the escaped literal or by the variable group. -/
def pieceOf : Tok → List Char
  | Tok.lit seg => '/' :: quoteMeta seg
  | Tok.var => '/' :: varPattern

/-- One iteration of the loop of templateToRegularExpression: extends the
buffer and updates literalCount / varCount. -/
def compileStep : List Char × Nat × Nat → Tok → List Char × Nat × Nat
  | (buffer, litC, varC), Tok.var => (buffer ++ pieceOf Tok.var, litC, varC + 1)
  | (buffer, litC, varC), Tok.lit seg =>
    (buffer ++ pieceOf (Tok.lit seg), litC + seg.length, varC)

/-- Mirrors templateToRegularExpression: returns the expression string,
the literal character count and the variable segment count. -/
def templateToRegularExpression (template : String) : String × Nat × Nat :=
  let acc := (toks template.data).foldl compileStep ([], 0, 0)
  (String.mk (trimRightSlash acc.1 ++ remPattern), acc.2.1, acc.2.2)

/-- All ways the non-greedy group ([^/]+?) can consume characters after its
leading '/', shortest capture first (leftmost-first preference order):
for k+1 = 1, 2, ... the capture is the first k+1 non-'/' characters. -/
def varSplits (rest1 : List Char) : List (List Char × List Char) :=
  (List.range (rest1.takeWhile (fun c => c ≠ '/')).length).map
    (fun k => ((rest1.takeWhile (fun c => c ≠ '/')).take (k + 1), rest1.drop (k + 1)))

/-- Returns the first success of f on the list, in order. -/
def firstSome {α β : Type} (f : α → Option β) : List α → Option β
  | [] => none
  | x :: xs =>
    match f x with
    | some b => some b
    | none => firstSome f xs

/-- Matches the token part of a generated expression at the head of a
suffix of the subject string, with Go regexp leftmost-first semantics:
literals must match exactly, each variable group tries the shortest
capture first and backtracks.  On success returns the captures of the
variable groups (in order) and the unconsumed suffix. -/
def matchSeq : List Tok → List Char → Option (List (List Char) × List Char)
  | [], rest => some ([], rest)
  | Tok.lit l :: ts, rest =>
    if ('/' :: l).isPrefixOf rest then matchSeq ts (rest.drop (l.length + 1)) else none
  | Tok.var :: ts, rest =>
    match rest with
    | '/' :: rest1 =>
      firstSome (fun kv =>
        match matchSeq ts kv.2 with
        | some (caps, rem) => some (kv.1 :: caps, rem)
        | none => none) (varSplits rest1)
    | _ => none

/-- Matches the full generated expression(tokens then the optional greedy
remainder group (/.*)?) at the start of a suffix of the subject.  On
success returns the submatch list in Go layout: the full match, one entry
per variable group, and the remainder group last ('.' does not match a
newline). -/
def matchAt (ts : List Tok) (s : List Char) : Option (List (List Char)) :=
  match matchSeq ts s with
  | none => none
  | some (caps, rest) =>
    let rem : List Char :=
      match rest with
      | '/' :: r => '/' :: r.takeWhile (fun c => c ≠ '\n')
      | _ => []
    some (s.take (s.length - rest.length + rem.length) :: (caps ++ [rem]))

/-- Mirrors regexp.FindStringSubmatch on a generated expression: the match
is unanchored, so the leftmost starting position with a match wins. -/
def findStringSubmatch (ts : List Tok) : List Char → Option (List (List Char))
  | [] => matchAt ts []
  | c :: s1 =>
    match matchAt ts (c :: s1) with
    | some m => some m
    | none => findStringSubmatch ts s1

/-- A route: an opaque handle exposing its relative path template. -/
structure Route where
  relativePath : String
deriving DecidableEq, Repr, Inhabited

/-- A dispatcher: a root path template and the list of its routes. -/
structure Dispatcher where
  rootPath : String
  routes : List Route
deriving DecidableEq, Repr, Inhabited

/-- Mirrors routeCandidate from jsr311.go. -/
structure RouteCandidate where
  route : Route
  regexpression : String
  matchesCount : Nat
  literalCount : Nat
  nonDefaultCount : Nat
deriving DecidableEq, Repr, Inhabited

/-- Mirrors dispatcherCandidate from jsr311.go. -/
structure DispatcherCandidate where
  dispatcher : Dispatcher
  finalMatch : String
  matchesCount : Nat
  literalCount : Nat
  nonDefaultCount : Nat
deriving DecidableEq, Repr, Inhabited

/-- Mirrors sortableRouteCandidates.Less(j, i): with ci the candidate at
the second position and cj at the first, the first sorts before the second
iff ci.matchesCount < cj.matchesCount, or on ties ci.literalCount <
cj.literalCount, or on further ties ci.nonDefaultCount < cj.nonDefaultCount. -/
def rcLess (a b : RouteCandidate) : Bool :=
  if b.matchesCount < a.matchesCount then true
  else if b.matchesCount > a.matchesCount then false
  else if b.literalCount < a.literalCount then true
  else if b.literalCount > a.literalCount then false
  else decide (b.nonDefaultCount < a.nonDefaultCount)

/-- Mirrors sortableCandidates.Less(j, i), the duplicated comparator for
dispatcher candidates. -/
def dcLess (a b : DispatcherCandidate) : Bool :=
  if b.matchesCount < a.matchesCount then true
  else if b.matchesCount > a.matchesCount then false
  else if b.literalCount < a.literalCount then true
  else if b.literalCount > a.literalCount then false
  else decide (b.nonDefaultCount < a.nonDefaultCount)

/-- Inserts x into a list sorted by the strict comparator less, after
every element strictly preceding it. -/
def insertRanked {α : Type} (less : α → α → Bool) (x : α) : List α → List α
  | [] => [x]
  | y :: ys => if less y x then y :: insertRanked less x ys else x :: y :: ys

/-- Models sort.Sort(filtered): produces a permutation sorted under the
strict comparator less (best-ranked element first). -/
def sortRanked {α : Type} (less : α → α → Bool) : List α → List α
  | [] => []
  | x :: xs => insertRanked less x (sortRanked less xs)

/-- The body of the route loop of selectRoutes: compile the template,
match against the remainder, and accept the candidate only if the last
captured group is "" or "/".  The generated expressions always compile
(QuoteMeta escapes every metacharacter), so the compile-error branch of
the Go code is unreachable and has no counterpart here. -/
def perRouteCandidate (final : String) (each : Route) : Option RouteCandidate :=
  let compiled := templateToRegularExpression each.relativePath
  match findStringSubmatch (toks each.relativePath.data) final.data with
  | none => none
  | some ms =>
    let lastGroup := ms.getLastD []
    if lastGroup = [] ∨ lastGroup = ['/'] then
      some ⟨each, compiled.1, ms.length, compiled.2.1, compiled.2.2⟩
    else none

/-- The filtered candidate list built by the loop of selectRoutes. -/
def routeCandidates (dispatcher : Dispatcher) (final : String) : List RouteCandidate :=
  dispatcher.routes.filterMap (perRouteCandidate final)

/-- Mirrors selectRoutes from jsr311.go. -/
def selectRoutes (dispatcher : Dispatcher) (final : String) :
    Except String (List Route) :=
  if final = "" ∨ final = "/" then Except.ok dispatcher.routes
  else
    let filtered := routeCandidates dispatcher final
    if filtered = [] then Except.error "not found"
    else
      let sorted := sortRanked rcLess filtered
      let rmatch := (sorted.headD default).regexpression
      Except.ok ((sorted.filter (fun c => c.regexpression == rmatch)).map
        (fun c => c.route))

/-- The body of the dispatcher loop of detectDispatcher: any successful
match yields a candidate, whatever the last captured group holds. -/
def perDispatcherCandidate (requestPath : String) (each : Dispatcher) :
    Option DispatcherCandidate :=
  let compiled := templateToRegularExpression each.rootPath
  match findStringSubmatch (toks each.rootPath.data) requestPath.data with
  | none => none
  | some ms =>
    some ⟨each, String.mk (ms.getLastD []), ms.length,
      compiled.2.1, compiled.2.2⟩

/-- The candidate list built by the loop of detectDispatcher. -/
def dispatcherCandidates (requestPath : String) (dispatchers : List Dispatcher) :
    List DispatcherCandidate :=
  dispatchers.filterMap (perDispatcherCandidate requestPath)

/-- Mirrors detectDispatcher from jsr311.go. -/
def detectDispatcher (requestPath : String) (dispatchers : List Dispatcher) :
    Except String (Dispatcher × String) :=
  let filtered := dispatcherCandidates requestPath dispatchers
  if filtered = [] then Except.error "not found"
  else
    let best := (sortRanked dcLess filtered).headD default
    Except.ok (best.dispatcher, best.finalMatch)

/-- Counts the unescaped '(' characters of an expression, i.e. its capture
groups (the generated expressions contain no non-capturing groups); the
Bool argument records whether the previous character was an escaping
backslash. -/
def countGroupsAux : Bool → List Char → Nat
  | _, [] => 0
  | true, _ :: rest => countGroupsAux false rest
  | false, c :: rest =>
    if c = '\\' then countGroupsAux true rest
    else (if c = '(' then 1 else 0) + countGroupsAux false rest

/-- The number of capture groups of a generated expression string. -/
def countGroups (l : List Char) : Nat := countGroupsAux false l

/-- The escape state after scanning a list of characters. -/
def escAfter : Bool → List Char → Bool
  | e, [] => e
  | true, _ :: rest => escAfter false rest
  | false, c :: rest => escAfter (decide (c = '\\')) rest

/-- Number of variable tokens. -/
def varCnt : List Tok → Nat
  | [] => 0
  | Tok.var :: ts => varCnt ts + 1
  | Tok.lit _ :: ts => varCnt ts

/-- Sum of literal token lengths. -/
def litCnt : List Tok → Nat
  | [] => 0
  | Tok.var :: ts => litCnt ts
  | Tok.lit seg :: ts => seg.length + litCnt ts

/-- The buffer built by folding compileStep over a token list. -/
def bufOf : List Tok → List Char
  | [] => []
  | t :: ts => pieceOf t ++ bufOf ts

/-- The ranking key of a route candidate. -/
def rkey (c : RouteCandidate) : Nat × Nat × Nat :=
  (c.matchesCount, c.literalCount, c.nonDefaultCount)

/-- The ranking key of a dispatcher candidate. -/
def dkey (c : DispatcherCandidate) : Nat × Nat × Nat :=
  (c.matchesCount, c.literalCount, c.nonDefaultCount)

/-- Strict lexicographic greater-than on key triples, every component
compared descending. -/
def lexGT3 (x y : Nat × Nat × Nat) : Prop :=
  y.1 < x.1 ∨ (x.1 = y.1 ∧ (y.2.1 < x.2.1 ∨ (x.2.1 = y.2.1 ∧ y.2.2 < x.2.2)))

/-! ### Comparator lemmas -/

/-- The route comparator is strict lexicographic greater-than on the key
triple, every component descending. -/
theorem rcLess_iff (a b : RouteCandidate) :
    rcLess a b = true ↔ lexGT3 (rkey a) (rkey b) := by
  unfold rcLess lexGT3 rkey
  repeat' split
  all_goals simp
  all_goals omega

/-- The dispatcher comparator is the same order on its key triple. -/
theorem dcLess_iff (p q : DispatcherCandidate) :
    dcLess p q = true ↔ lexGT3 (dkey p) (dkey q) := by
  unfold dcLess lexGT3 dkey
  repeat' split
  all_goals simp
  all_goals omega

theorem lexGT3_irrefl (x : Nat × Nat × Nat) : ¬ lexGT3 x x := by
  unfold lexGT3; omega

theorem lexGT3_asymm {x y : Nat × Nat × Nat} (h : lexGT3 x y) : ¬ lexGT3 y x := by
  unfold lexGT3 at *; omega

theorem lexGT3_trans {x y z : Nat × Nat × Nat} (h1 : lexGT3 x y) (h2 : lexGT3 y z) :
    lexGT3 x z := by
  unfold lexGT3 at *; omega

theorem lexGT3_total {x y : Nat × Nat × Nat} (h : x ≠ y) : lexGT3 x y ∨ lexGT3 y x := by
  unfold lexGT3
  by_contra hc
  push_neg at hc
  apply h
  have hx : x = (x.1, x.2.1, x.2.2) := rfl
  have hy : y = (y.1, y.2.1, y.2.2) := rfl
  rw [hx, hy]
  have : x.1 = y.1 ∧ x.2.1 = y.2.1 ∧ x.2.2 = y.2.2 := by omega
  rw [this.1, this.2.1, this.2.2]

theorem lexGT3_negtrans {x y z : Nat × Nat × Nat} (h1 : ¬ lexGT3 y x)
    (h2 : ¬ lexGT3 z y) : ¬ lexGT3 z x := by
  unfold lexGT3 at *; omega

theorem rcLess_false_iff (a b : RouteCandidate) :
    rcLess a b = false ↔ ¬ lexGT3 (rkey a) (rkey b) := by
  rw [← rcLess_iff]
  cases h : rcLess a b <;> simp

theorem dcLess_false_iff (p q : DispatcherCandidate) :
    dcLess p q = false ↔ ¬ lexGT3 (dkey p) (dkey q) := by
  rw [← dcLess_iff]
  cases h : dcLess p q <;> simp

theorem rcLess_asymm {a b : RouteCandidate} (h : rcLess a b = true) :
    rcLess b a = false :=
  (rcLess_false_iff b a).mpr (lexGT3_asymm ((rcLess_iff a b).mp h))

theorem rcLess_irrefl (a : RouteCandidate) : rcLess a a = false :=
  (rcLess_false_iff a a).mpr (lexGT3_irrefl _)

theorem rcLess_negtrans {a b c : RouteCandidate} (h1 : rcLess b a = false)
    (h2 : rcLess c b = false) : rcLess c a = false :=
  (rcLess_false_iff c a).mpr
    (lexGT3_negtrans ((rcLess_false_iff b a).mp h1) ((rcLess_false_iff c b).mp h2))

theorem dcLess_asymm {p q : DispatcherCandidate} (h : dcLess p q = true) :
    dcLess q p = false :=
  (dcLess_false_iff q p).mpr (lexGT3_asymm ((dcLess_iff p q).mp h))

theorem dcLess_irrefl (p : DispatcherCandidate) : dcLess p p = false :=
  (dcLess_false_iff p p).mpr (lexGT3_irrefl _)

theorem dcLess_negtrans {p q r : DispatcherCandidate} (h1 : dcLess q p = false)
    (h2 : dcLess r q = false) : dcLess r p = false :=
  (dcLess_false_iff r p).mpr
    (lexGT3_negtrans ((dcLess_false_iff q p).mp h1) ((dcLess_false_iff r q).mp h2))

/-! ### Sorting lemmas -/

theorem mem_insertRanked {α : Type} (less : α → α → Bool) (x a : α) :
    ∀ l : List α, a ∈ insertRanked less x l ↔ a = x ∨ a ∈ l := by
  intro l
  induction l with
  | nil => simp [insertRanked]
  | cons y ys ih =>
    unfold insertRanked
    split
    · simp only [List.mem_cons, ih]
      tauto
    · simp only [List.mem_cons]

theorem mem_sortRanked {α : Type} (less : α → α → Bool) (a : α) :
    ∀ l : List α, a ∈ sortRanked less l ↔ a ∈ l := by
  intro l
  induction l with
  | nil => simp [sortRanked]
  | cons y ys ih =>
    unfold sortRanked
    rw [mem_insertRanked]
    simp only [List.mem_cons, ih]

theorem sortRanked_eq_nil_iff {α : Type} (less : α → α → Bool) (l : List α) :
    sortRanked less l = [] ↔ l = [] := by
  cases l with
  | nil => simp [sortRanked]
  | cons y ys =>
    simp only [sortRanked]
    constructor
    · intro h
      have : y ∈ insertRanked less y (sortRanked less ys) := by
        rw [mem_insertRanked]; left; rfl
      rw [h] at this
      cases this
    · intro h
      cases h

theorem pairwise_insertRanked {α : Type} (less : α → α → Bool)
    (hasym : ∀ a b : α, less a b = true → less b a = false)
    (hneg : ∀ a b c : α, less b a = false → less c b = false → less c a = false)
    (x : α) :
    ∀ l : List α, l.Pairwise (fun a b => less b a = false) →
      (insertRanked less x l).Pairwise (fun a b => less b a = false) := by
  intro l
  induction l with
  | nil =>
    intro _
    simp [insertRanked]
  | cons y ys ih =>
    intro hp
    rw [List.pairwise_cons] at hp
    unfold insertRanked
    split
    · rename_i hyx
      rw [List.pairwise_cons]
      constructor
      · intro z hz
        rw [mem_insertRanked] at hz
        rcases hz with rfl | hz
        · exact hasym y z hyx
        · exact hp.1 z hz
      · exact ih hp.2
    · rename_i hyx
      rw [List.pairwise_cons]
      constructor
      · intro z hz
        rcases List.mem_cons.mp hz with rfl | hz
        · simpa using hyx
        · exact hneg x y z (by simpa using hyx) (hp.1 z hz)
      · rw [List.pairwise_cons]
        exact ⟨hp.1, hp.2⟩

theorem pairwise_sortRanked {α : Type} (less : α → α → Bool)
    (hasym : ∀ a b : α, less a b = true → less b a = false)
    (hneg : ∀ a b c : α, less b a = false → less c b = false → less c a = false) :
    ∀ l : List α, (sortRanked less l).Pairwise (fun a b => less b a = false) := by
  intro l
  induction l with
  | nil => simp [sortRanked]
  | cons y ys ih =>
    exact pairwise_insertRanked less hasym hneg y _ ih

/-- The head of the sorted list is maximal: no element of the input sorts
strictly before it. -/
theorem sortRanked_head_max {α : Type} (less : α → α → Bool)
    (hasym : ∀ a b : α, less a b = true → less b a = false)
    (hneg : ∀ a b c : α, less b a = false → less c b = false → less c a = false)
    (hirr : ∀ a : α, less a a = false)
    (l : List α) (h : α) (t : List α) (hsort : sortRanked less l = h :: t) :
    ∀ y ∈ l, less y h = false := by
  intro y hy
  have hmem : y ∈ sortRanked less l := (mem_sortRanked less y l).mpr hy
  rw [hsort] at hmem
  rcases List.mem_cons.mp hmem with rfl | hmem
  · exact hirr y
  · have hp := pairwise_sortRanked less hasym hneg l
    rw [hsort, List.pairwise_cons] at hp
    exact hp.1 y hmem

/-! ### Template compilation lemmas -/

theorem foldl_compileStep : ∀ (ts : List Tok) (b : List Char) (l v : Nat),
    ts.foldl compileStep (b, l, v) = (b ++ bufOf ts, l + litCnt ts, v + varCnt ts) := by
  intro ts
  induction ts with
  | nil => intro b l v; simp [bufOf, litCnt, varCnt]
  | cons t ts ih =>
    intro b l v
    cases t with
    | var =>
      simp only [List.foldl_cons, compileStep, ih, bufOf, litCnt, varCnt]
      refine Prod.ext ?_ (Prod.ext ?_ ?_) <;> simp [List.append_assoc] <;> try omega
    | lit seg =>
      simp only [List.foldl_cons, compileStep, ih, bufOf, litCnt, varCnt]
      refine Prod.ext ?_ (Prod.ext ?_ ?_) <;> simp [List.append_assoc] <;> try omega

/-- templateToRegularExpression in terms of the token list of the template. -/
theorem t2re_eq (t : String) : templateToRegularExpression t =
    (String.mk (trimRightSlash (bufOf (toks t.data)) ++ remPattern),
      litCnt (toks t.data), varCnt (toks t.data)) := by
  unfold templateToRegularExpression
  rw [foldl_compileStep]
  simp

/-! ### Matcher lemmas -/

theorem firstSome_some {α β : Type} (f : α → Option β) :
    ∀ (l : List α) (b : β), firstSome f l = some b → ∃ a ∈ l, f a = some b := by
  intro l
  induction l with
  | nil => intro b h; cases h
  | cons x xs ih =>
    intro b h
    unfold firstSome at h
    split at h
    · rename_i v hv
      exact ⟨x, List.mem_cons_self x xs, by rw [hv, h]⟩
    · rcases ih b h with ⟨a, ha, hfa⟩
      exact ⟨a, List.mem_cons_of_mem x ha, hfa⟩

/-- A successful token match produces exactly one capture per variable
token. -/
theorem matchSeq_caps_length :
    ∀ (ts : List Tok) (s : List Char) (caps : List (List Char)) (rest : List Char),
      matchSeq ts s = some (caps, rest) → caps.length = varCnt ts := by
  intro ts
  induction ts with
  | nil =>
    intro s caps rest h
    simp only [matchSeq, Option.some.injEq, Prod.mk.injEq] at h
    rw [← h.1]
    rfl
  | cons t ts ih =>
    intro s caps rest h
    cases t with
    | lit l =>
      simp only [matchSeq] at h
      split at h
      · exact ih _ _ _ h ▸ rfl
      · cases h
    | var =>
      simp only [matchSeq] at h
      split at h
      · rename_i rest1
        rcases firstSome_some _ _ _ h with ⟨kv, _, hkv⟩
        split at hkv
        · rename_i caps' rem' hm
          simp only [Option.some.injEq, Prod.mk.injEq] at hkv
          rw [← hkv.1]
          simp only [List.length_cons, varCnt]
          rw [ih _ _ _ hm]
        · cases hkv
      · cases h

/-- A successful unanchored match returns varCount + 2 entries: the full
match, one per variable group, and the remainder group. -/
theorem matchAt_length (ts : List Tok) (s : List Char) (m : List (List Char))
    (h : matchAt ts s = some m) : m.length = varCnt ts + 2 := by
  unfold matchAt at h
  split at h
  · cases h
  · rename_i caps rest hm
    simp only [Option.some.injEq] at h
    rw [← h]
    simp only [List.length_cons, List.length_append, List.length_nil]
    rw [matchSeq_caps_length ts s caps rest hm]

theorem findStringSubmatch_length (ts : List Tok) :
    ∀ (s : List Char) (m : List (List Char)),
      findStringSubmatch ts s = some m → m.length = varCnt ts + 2 := by
  intro s
  induction s with
  | nil =>
    intro m h
    exact matchAt_length ts [] m h
  | cons c s1 ih =>
    intro m h
    simp only [findStringSubmatch] at h
    split at h
    · rename_i m2 hm2
      injection h with h2
      rw [← h2]
      exact matchAt_length ts (c :: s1) m2 hm2
    · exact ih m h

/-! ### Candidate construction lemmas -/

theorem mem_routeCandidates (d : Dispatcher) (f : String) (c : RouteCandidate) :
    c ∈ routeCandidates d f ↔ ∃ r ∈ d.routes, perRouteCandidate f r = some c :=
  List.mem_filterMap

theorem mem_dispatcherCandidates (p : String) (ds : List Dispatcher)
    (c : DispatcherCandidate) :
    c ∈ dispatcherCandidates p ds ↔ ∃ e ∈ ds, perDispatcherCandidate p e = some c :=
  List.mem_filterMap

theorem perRouteCandidate_of_match (final : String) (r : Route) (m : List (List Char))
    (h : findStringSubmatch (toks r.relativePath.data) final.data = some m) :
    perRouteCandidate final r ≠ none ↔
      (m.getLastD [] = [] ∨ m.getLastD [] = ['/']) := by
  simp only [perRouteCandidate, h]
  split <;> rename_i hc <;> simp only [List.getLastD_eq_getLast?] at hc <;> simp [hc]

theorem perRouteCandidate_of_no_match (final : String) (r : Route)
    (h : findStringSubmatch (toks r.relativePath.data) final.data = none) :
    perRouteCandidate final r = none := by
  simp [perRouteCandidate, h]

theorem perRouteCandidate_route (final : String) (r : Route) (c : RouteCandidate)
    (h : perRouteCandidate final r = some c) : c.route = r := by
  unfold perRouteCandidate at h
  split at h
  · cases h
  · dsimp only at h
    split at h
    · injection h with h2
      rw [← h2]
    · cases h

theorem perRouteCandidate_counts (final : String) (r : Route) (c : RouteCandidate)
    (h : perRouteCandidate final r = some c) :
    c.matchesCount = c.nonDefaultCount + 2 := by
  unfold perRouteCandidate at h
  split at h
  · cases h
  · rename_i ms hms
    dsimp only at h
    split at h
    · injection h with h2
      rw [← h2]
      simp only [t2re_eq]
      exact findStringSubmatch_length _ _ _ hms
    · cases h

theorem perDispatcherCandidate_of_match (p : String) (e : Dispatcher)
    (m : List (List Char))
    (h : findStringSubmatch (toks e.rootPath.data) p.data = some m) :
    perDispatcherCandidate p e = some ⟨e, String.mk (m.getLastD []), m.length,
      (templateToRegularExpression e.rootPath).2.1,
      (templateToRegularExpression e.rootPath).2.2⟩ := by
  simp [perDispatcherCandidate, h]

theorem perDispatcherCandidate_of_no_match (p : String) (e : Dispatcher)
    (h : findStringSubmatch (toks e.rootPath.data) p.data = none) :
    perDispatcherCandidate p e = none := by
  simp [perDispatcherCandidate, h]

theorem perDispatcherCandidate_dispatcher (p : String) (e : Dispatcher)
    (c : DispatcherCandidate) (h : perDispatcherCandidate p e = some c) :
    c.dispatcher = e := by
  unfold perDispatcherCandidate at h
  split at h
  · cases h
  · injection h with h2
    rw [← h2]

theorem perDispatcherCandidate_counts (p : String) (e : Dispatcher)
    (c : DispatcherCandidate) (h : perDispatcherCandidate p e = some c) :
    c.matchesCount = c.nonDefaultCount + 2 := by
  unfold perDispatcherCandidate at h
  split at h
  · cases h
  · rename_i ms hms
    injection h with h2
    rw [← h2]
    simp only [t2re_eq]
    exact findStringSubmatch_length _ _ _ hms

/-! ### Capture-group counting lemmas -/

theorem countGroupsAux_append : ∀ (a : List Char) (e : Bool) (b : List Char),
    countGroupsAux e (a ++ b) = countGroupsAux e a + countGroupsAux (escAfter e a) b := by
  intro a
  induction a with
  | nil => intro e b; simp [countGroupsAux, escAfter]
  | cons c a ih =>
    intro e b
    cases e with
    | true =>
      simp only [List.cons_append, countGroupsAux, escAfter, List.append_eq]
      exact ih false b
    | false =>
      simp only [List.cons_append, countGroupsAux, escAfter, List.append_eq]
      by_cases hc : c = '\\'
      · simp only [hc]
        simpa using ih true b
      · simp only [if_neg hc, decide_eq_false hc]
        have h2 := ih false b
        simp only [List.append_eq] at h2
        rw [h2]
        omega

theorem escAfter_append : ∀ (a : List Char) (e : Bool) (b : List Char),
    escAfter e (a ++ b) = escAfter (escAfter e a) b := by
  intro a
  induction a with
  | nil => intro e b; simp [escAfter]
  | cons c a ih =>
    intro e b
    cases e with
    | true =>
      simp only [List.cons_append, escAfter, List.append_eq]
      exact ih false b
    | false =>
      simp only [List.cons_append, escAfter, List.append_eq]
      exact ih _ b

theorem quoteMeta_groups : ∀ s : List Char,
    countGroupsAux false (quoteMeta s) = 0 ∧ escAfter false (quoteMeta s) = false := by
  intro s
  induction s with
  | nil => simp [quoteMeta, countGroupsAux, escAfter]
  | cons c s ih =>
    unfold quoteMeta
    by_cases hc : isSpecialChar c
    · rw [if_pos hc]
      have hd : decide (('\\' : Char) = '\\') = true := by decide
      simp only [countGroupsAux, escAfter, if_pos rfl, hd]
      exact ih
    · rw [if_neg hc]
      have hc2 : ¬ (c = '\\') := fun h => hc (by rw [h]; rfl)
      have hc3 : ¬ (c = '(') := fun h => hc (by rw [h]; rfl)
      simp only [countGroupsAux, escAfter, if_neg hc2, if_neg hc3,
        decide_eq_false hc2]
      simpa using ih

theorem pieceOf_groups : ∀ t : Tok,
    countGroupsAux false (pieceOf t) = varCnt [t] ∧ escAfter false (pieceOf t) = false := by
  intro t
  cases t with
  | var => constructor <;> rfl
  | lit seg =>
    simp only [pieceOf, varCnt, countGroupsAux, escAfter]
    have h1 : ¬ (('/' : Char) = '\\') := by decide
    have h2 : ¬ (('/' : Char) = '(') := by decide
    rw [if_neg h1, if_neg h2, decide_eq_false h1]
    simpa using quoteMeta_groups seg

theorem bufOf_groups : ∀ ts : List Tok,
    countGroupsAux false (bufOf ts) = varCnt ts ∧ escAfter false (bufOf ts) = false := by
  intro ts
  induction ts with
  | nil => simp [bufOf, varCnt, countGroupsAux, escAfter]
  | cons t ts ih =>
    simp only [bufOf, countGroupsAux_append, escAfter_append]
    rcases pieceOf_groups t with ⟨hg, he⟩
    rw [hg, he, ih.1, ih.2]
    cases t <;> simp [varCnt] <;> omega

/-! ### TrimRight lemmas -/

theorem quoteMeta_ne_nil : ∀ s : List Char, s ≠ [] → quoteMeta s ≠ [] := by
  intro s hs
  cases s with
  | nil => exact absurd rfl hs
  | cons c rest =>
    unfold quoteMeta
    split <;> simp

theorem quoteMeta_cons : ∀ (c : Char) (s : List Char),
    quoteMeta (c :: s) = (if isSpecialChar c then ['\\', c] else [c]) ++ quoteMeta s := by
  intro c s
  by_cases h : isSpecialChar c <;> simp [quoteMeta, h]

theorem getLast?_quoteMeta : ∀ s : List Char, s ≠ [] →
    ∃ x, (quoteMeta s).getLast? = some x ∧ x ∈ s := by
  intro s
  induction s with
  | nil => intro h; exact absurd rfl h
  | cons c rest ih =>
    intro _
    cases hr : rest with
    | nil =>
      refine ⟨c, ?_, by simp⟩
      rw [quoteMeta_cons]
      split <;> simp [quoteMeta]
    | cons d rest2 =>
      rcases ih (by simp [hr]) with ⟨x, hx, hmem⟩
      refine ⟨x, ?_, List.mem_cons_of_mem c (hr ▸ hmem)⟩
      rw [hr] at hx
      rw [quoteMeta_cons, List.getLast?_append, hx]
      rfl

theorem splitSlash_ne_nil : ∀ l : List Char, splitSlash l ≠ [] := by
  intro l
  cases l with
  | nil => simp [splitSlash]
  | cons c rest =>
    unfold splitSlash
    split
    · simp
    · split <;> simp

theorem splitSlash_no_slash : ∀ (l : List Char) (seg : List Char),
    seg ∈ splitSlash l → '/' ∉ seg := by
  intro l
  induction l with
  | nil =>
    intro seg h
    simp [splitSlash] at h
    simp [h]
  | cons c rest ih =>
    intro seg h
    unfold splitSlash at h
    split at h
    · rcases List.mem_cons.mp h with rfl | h2
      · simp
      · exact ih seg h2
    · rename_i hc
      split at h
      · rename_i hnil
        exact absurd hnil (splitSlash_ne_nil rest)
      · rename_i h0 t0 heq
        rcases List.mem_cons.mp h with rfl | h2
        · intro hmem
          rcases List.mem_cons.mp hmem with rfl | h3
          · exact hc rfl
          · exact ih h0 (heq ▸ List.mem_cons_self h0 t0) h3
        · exact ih seg (heq ▸ List.mem_cons_of_mem h0 h2)

theorem toks_lit_facts : ∀ (t : List Char) (seg : List Char),
    Tok.lit seg ∈ toks t → seg ≠ [] ∧ '/' ∉ seg := by
  intro t seg h
  unfold toks at h
  rcases List.mem_filterMap.mp h with ⟨s0, hs0, hseg⟩
  unfold segTok at hseg
  split at hseg
  · cases hseg
  · split at hseg
    · cases hseg
    · rename_i hne _
      injection hseg with h2
      injection h2 with h3
      subst h3
      exact ⟨hne, splitSlash_no_slash t _ hs0⟩

theorem bufOf_ne_nil : ∀ ts : List Tok, ts ≠ [] → bufOf ts ≠ [] := by
  intro ts h
  cases ts with
  | nil => exact absurd rfl h
  | cons t ts2 =>
    cases t <;> simp [bufOf, pieceOf]

theorem bufOf_getLast : ∀ ts : List Tok,
    (∀ seg, Tok.lit seg ∈ ts → seg ≠ [] ∧ '/' ∉ seg) → ts ≠ [] →
    ∃ x, (bufOf ts).getLast? = some x ∧ x ≠ '/' := by
  intro ts
  induction ts with
  | nil => intro _ h; exact absurd rfl h
  | cons t ts2 ih =>
    intro hgood _
    cases hts2 : ts2 with
    | cons u us =>
      rcases ih (fun seg hs => hgood seg (List.mem_cons_of_mem t hs)) (by simp [hts2]) with
        ⟨x, hx, hmem⟩
      refine ⟨x, ?_, hmem⟩
      rw [hts2] at hx
      simp only [bufOf, List.getLast?_append] at hx ⊢
      rw [hx]
      rfl
    | nil =>
      simp only [bufOf, List.append_nil]
      cases t with
      | var => exact ⟨')', by constructor <;> decide⟩
      | lit seg =>
        rcases hgood seg (List.mem_cons_self _ _) with ⟨hne, hns⟩
        rcases getLast?_quoteMeta seg hne with ⟨x, hx, hmem⟩
        refine ⟨x, ?_, fun hx2 => hns (hx2 ▸ hmem)⟩
        simp only [pieceOf]
        rw [show ('/' :: quoteMeta seg) = ['/'] ++ quoteMeta seg from rfl,
          List.getLast?_append, hx]
        rfl

theorem trimRightSlash_self : ∀ (l : List Char) (x : Char),
    l.getLast? = some x → x ≠ '/' → trimRightSlash l = l := by
  intro l x hlast hx
  unfold trimRightSlash
  rw [← List.head?_reverse] at hlast
  cases hrev : l.reverse with
  | nil => rw [hrev] at hlast; cases hlast
  | cons y ys =>
    rw [hrev] at hlast
    injection hlast with h2
    subst h2
    rw [List.dropWhile_cons, if_neg (by simpa using hx)]
    rw [← hrev, List.reverse_reverse]

/-- The generated expression of any template has exactly varCount + 1
capture groups. -/
theorem countGroups_t2re : ∀ t : String,
    countGroups (templateToRegularExpression t).1.data =
      (templateToRegularExpression t).2.2 + 1 := by
  intro t
  rw [t2re_eq]
  show countGroups (trimRightSlash (bufOf (toks t.data)) ++ remPattern) =
    varCnt (toks t.data) + 1
  cases hts : toks t.data with
  | nil => decide
  | cons t0 ts0 =>
    have hgood : ∀ seg, Tok.lit seg ∈ (t0 :: ts0) → seg ≠ [] ∧ '/' ∉ seg :=
      fun seg hs => toks_lit_facts t.data seg (hts ▸ hs)
    rcases bufOf_getLast (t0 :: ts0) hgood (by simp) with ⟨x, hx, hxs⟩
    rw [trimRightSlash_self _ x hx hxs]
    unfold countGroups
    rw [countGroupsAux_append, (bufOf_groups _).1, (bufOf_groups _).2]
    have hrem : countGroupsAux false remPattern = 1 := by decide
    rw [hrem]

/-! ### Literal-only template lemmas -/

theorem toks_all_lit : ∀ segs : List (List Char),
    (∀ seg ∈ segs, seg ≠ [] → isVarSeg seg = false) →
    segs.filterMap segTok = (segs.filter (fun seg => !seg.isEmpty)).map Tok.lit := by
  intro segs
  induction segs with
  | nil => intro _; rfl
  | cons seg segs ih =>
    intro h
    have hseg := h seg (List.mem_cons_self _ _)
    have hrest := fun s hs hne => h s (List.mem_cons_of_mem seg hs) hne
    by_cases hne : seg = []
    · subst hne
      simp only [List.filterMap_cons, segTok, if_pos rfl, List.filter_cons]
      simpa using ih hrest
    · have hv := hseg hne
      simp only [List.filterMap_cons, segTok, if_neg hne, hv, List.filter_cons]
      have hbe : (!seg.isEmpty) = true := by
        simp [List.isEmpty_iff, hne]
      simp only [Bool.false_eq_true, if_false, hbe, if_true, List.map_cons]
      rw [ih hrest]

theorem varCnt_map_lit : ∀ xs : List (List Char), varCnt (xs.map Tok.lit) = 0 := by
  intro xs
  induction xs with
  | nil => rfl
  | cons x xs ih => simp only [List.map_cons, varCnt, ih]

theorem litCnt_map_lit : ∀ xs : List (List Char),
    litCnt (xs.map Tok.lit) = (xs.map List.length).sum := by
  intro xs
  induction xs with
  | nil => rfl
  | cons x xs ih => simp only [List.map_cons, litCnt, List.sum_cons, ih]

theorem routeCandidates_counts (d : Dispatcher) (f : String) :
    ∀ c ∈ routeCandidates d f, c.matchesCount = c.nonDefaultCount + 2 := by
  intro c hc
  rcases (mem_routeCandidates d f c).mp hc with ⟨r, _, hr⟩
  exact perRouteCandidate_counts f r c hr

/-! ### Claim theorems -/

/-- Claim C1 (counterexample): for the dispatcher with exactly the routes
  /a/(leftbrace)var(rightbrace) and /a/b and remainder /a/b, selectRoutes
does NOT prefer the literal route /a/b: it returns exactly the variable
route, which is a different route. -/
theorem claim1_counterexample :
    selectRoutes ⟨"", [⟨"/a/\x7bvar\x7d"⟩, ⟨"/a/b"⟩]⟩ "/a/b" =
      Except.ok [⟨"/a/\x7bvar\x7d"⟩] ∧
    (⟨"/a/\x7bvar\x7d"⟩ : Route) ≠ ⟨"/a/b"⟩ := by
  constructor
  · rfl
  · decide

/-- Claim C1 (amended): for the two routes /a/(leftbrace)var(rightbrace)
and /a/b and remainder /a/b, both routes become candidates, but their
matchesCount values differ (3 for the variable route, 2 for the literal
route, since the submatch list has varCount + 2 entries), so the primary
key already decides: the variable route is ranked first and selectRoutes
returns it alone. -/
theorem claim1_amended :
    routeCandidates ⟨"", [⟨"/a/\x7bvar\x7d"⟩, ⟨"/a/b"⟩]⟩ "/a/b" =
      [⟨⟨"/a/\x7bvar\x7d"⟩, "/a/([^/]+?)(/.*)?", 3, 1, 1⟩,
       ⟨⟨"/a/b"⟩, "/a/b(/.*)?", 2, 2, 0⟩] ∧
    rcLess ⟨⟨"/a/\x7bvar\x7d"⟩, "/a/([^/]+?)(/.*)?", 3, 1, 1⟩
        ⟨⟨"/a/b"⟩, "/a/b(/.*)?", 2, 2, 0⟩ = true ∧
    selectRoutes ⟨"", [⟨"/a/\x7bvar\x7d"⟩, ⟨"/a/b"⟩]⟩ "/a/b" =
      Except.ok [⟨"/a/\x7bvar\x7d"⟩] := by
  exact ⟨rfl, rfl, rfl⟩

/-- Claim C4: selectRoutes with remainder "" or "/" returns the complete
route list of the dispatcher unchanged, with no error. -/
theorem claim4_theorem : ∀ d : Dispatcher,
    selectRoutes d "" = Except.ok d.routes ∧
    selectRoutes d "/" = Except.ok d.routes := by
  intro d
  constructor <;> rfl

/-- Claim C8 (counterexample): the compiled pattern of template /a.b also
accepts the different path /z/a.b (matching is unanchored), so it is not
true that no path other than /a.b and its slash-extensions is accepted:
the route is even returned by selectRoutes for that remainder. -/
theorem claim8_counterexample :
    findStringSubmatch (toks "/a.b".data) "/z/a.b".data =
      some ["/a.b".data, []] ∧
    selectRoutes ⟨"", [⟨"/a.b"⟩]⟩ "/z/a.b" = Except.ok [⟨"/a.b"⟩] ∧
    ("/z/a.b" : String) ≠ "/a.b" := by
  refine ⟨rfl, rfl, by decide⟩

/-- Claim C8 (amended): the regex-special dot of template /a.b is escaped
in the compiled pattern, which therefore matches the literal path /a.b
(and its slash-extended sub-paths via the remainder group) and does not
match /aXb; however, because the pattern is unanchored, paths containing
/a.b at a later offset (such as /z/a.b) are also accepted. -/
theorem claim8_amended :
    (templateToRegularExpression "/a.b").1 = "/a\\.b(/.*)?" ∧
    findStringSubmatch (toks "/a.b".data) "/a.b".data =
      some ["/a.b".data, []] ∧
    findStringSubmatch (toks "/a.b".data) "/a.b/c".data =
      some ["/a.b/c".data, "/c".data] ∧
    findStringSubmatch (toks "/a.b".data) "/aXb".data = none ∧
    findStringSubmatch (toks "/a.b".data) "/z/a.b".data =
      some ["/a.b".data, []] := by
  exact ⟨rfl, rfl, rfl, rfl, rfl⟩

/-- Claim C2 (counterexample): for two route candidates equal on
matchesCount and literalCount, the one with the SMALLER varCount is not
ordered before the other; the comparator orders the larger varCount
first (descending, not ascending, on the tertiary key). -/
theorem claim2_counterexample :
    rcLess ⟨⟨"ra"⟩, "e", 2, 2, 0⟩ ⟨⟨"rb"⟩, "e", 2, 2, 1⟩ = false ∧
    rcLess ⟨⟨"rb"⟩, "e", 2, 2, 1⟩ ⟨⟨"ra"⟩, "e", 2, 2, 0⟩ = true := by
  exact ⟨rfl, rfl⟩

/-- Claim C2 (amended): both candidate comparators are the strict
lexicographic order that sorts descending on matchesCount, then
descending on literalCount, then DESCENDING on varCount (more variable
segments ranked better on the tertiary key); the order is asymmetric,
transitive, and total on candidates with distinct key triples, with the
best candidate sorted first. -/
theorem claim2_amended : ∀ (a b c : RouteCandidate) (p q r : DispatcherCandidate),
    (rcLess a b = true ↔ lexGT3 (rkey a) (rkey b)) ∧
    (dcLess p q = true ↔ lexGT3 (dkey p) (dkey q)) ∧
    (rcLess a b = true → rcLess b a = false) ∧
    (rcLess a b = true → rcLess b c = true → rcLess a c = true) ∧
    (rkey a ≠ rkey b → rcLess a b = true ∨ rcLess b a = true) ∧
    (a.matchesCount = b.matchesCount → a.literalCount = b.literalCount →
      (rcLess a b = true ↔ b.nonDefaultCount < a.nonDefaultCount)) ∧
    (dcLess p q = true → dcLess q p = false) ∧
    (dcLess p q = true → dcLess q r = true → dcLess p r = true) := by
  intro a b c p q r
  refine ⟨rcLess_iff a b, dcLess_iff p q, fun h => rcLess_asymm h, ?_, ?_, ?_,
    fun h => dcLess_asymm h, ?_⟩
  · intro h1 h2
    exact (rcLess_iff a c).mpr
      (lexGT3_trans ((rcLess_iff a b).mp h1) ((rcLess_iff b c).mp h2))
  · intro h
    rcases lexGT3_total h with h2 | h2
    · exact Or.inl ((rcLess_iff a b).mpr h2)
    · exact Or.inr ((rcLess_iff b a).mpr h2)
  · intro h1 h2
    rw [rcLess_iff]
    unfold lexGT3 rkey
    dsimp only
    omega
  · intro h1 h2
    exact (dcLess_iff p r).mpr
      (lexGT3_trans ((dcLess_iff p q).mp h1) ((dcLess_iff q r).mp h2))

/-- Claim C2 (witness): the amended comparator order at a concrete pair of
candidates equal on the first two keys. -/
theorem claim2_witness :
    rcLess ⟨⟨"ra"⟩, "e", 2, 2, 0⟩ ⟨⟨"rb"⟩, "e", 2, 2, 1⟩ = true ↔
      (⟨⟨"rb"⟩, "e", 2, 2, 1⟩ : RouteCandidate).nonDefaultCount <
      (⟨⟨"ra"⟩, "e", 2, 2, 0⟩ : RouteCandidate).nonDefaultCount :=
  (claim2_amended ⟨⟨"ra"⟩, "e", 2, 2, 0⟩ ⟨⟨"rb"⟩, "e", 2, 2, 1⟩
    ⟨⟨"ra"⟩, "e", 2, 2, 0⟩ ⟨⟨"", []⟩, "", 0, 0, 0⟩ ⟨⟨"", []⟩, "", 0, 0, 0⟩
    ⟨⟨"", []⟩, "", 0, 0, 0⟩).2.2.2.2.2.1 rfl rfl

/-- Claim C9: a template with no variable segments compiles to varCount 0
and literalCount equal to the sum of the lengths of its non-empty
segments. -/
theorem claim9_theorem : ∀ t : String,
    (∀ seg ∈ splitSlash t.data, seg ≠ [] → isVarSeg seg = false) →
    (templateToRegularExpression t).2.2 = 0 ∧
    (templateToRegularExpression t).2.1 =
      (((splitSlash t.data).filter (fun seg => !seg.isEmpty)).map List.length).sum := by
  intro t h
  rw [t2re_eq]
  constructor
  · show varCnt (toks t.data) = 0
    unfold toks
    rw [toks_all_lit _ h]
    exact varCnt_map_lit _
  · show litCnt (toks t.data) = _
    unfold toks
    rw [toks_all_lit _ h]
    exact litCnt_map_lit _

/-- Claim C9 (witness): the literal-only template /a/b.c has varCount 0
and literalCount 1 + 3 = 4. -/
theorem claim9_witness :
    (templateToRegularExpression "/a/b.c").2.2 = 0 ∧
    (templateToRegularExpression "/a/b.c").2.1 =
      (((splitSlash "/a/b.c".data).filter (fun seg => !seg.isEmpty)).map
        List.length).sum :=
  claim9_theorem "/a/b.c" (by decide)

/-- Claim C10: every generated expression has exactly varCount + 1 capture
groups (counted as unescaped parentheses of the expression string), every
successful match therefore has varCount + 2 submatch entries, and hence
two route candidates with equal matchesCount always have equal varCount,
so the tertiary comparator key never decides between candidates. -/
theorem claim10_theorem :
    (∀ t : String, countGroups (templateToRegularExpression t).1.data =
      (templateToRegularExpression t).2.2 + 1) ∧
    (∀ (t : String) (s : List Char) (m : List (List Char)),
      findStringSubmatch (toks t.data) s = some m →
      m.length = (templateToRegularExpression t).2.2 + 2) ∧
    (∀ (d : Dispatcher) (f : String) (c1 c2 : RouteCandidate),
      c1 ∈ routeCandidates d f → c2 ∈ routeCandidates d f →
      c1.matchesCount = c2.matchesCount →
      c1.nonDefaultCount = c2.nonDefaultCount) := by
  refine ⟨countGroups_t2re, ?_, ?_⟩
  · intro t s m h
    rw [t2re_eq]
    show m.length = varCnt (toks t.data) + 2
    exact findStringSubmatch_length _ _ _ h
  · intro d f c1 c2 h1 h2 hm
    have e1 := routeCandidates_counts d f c1 h1
    have e2 := routeCandidates_counts d f c2 h2
    omega

/-- Claim C10 (witness): the submatch list of the match of template
/a/(leftbrace)v(rightbrace) against /a/b has 1 + 2 = 3 entries. -/
theorem claim10_witness :
    (["/a/b".data, ['b'], []] : List (List Char)).length =
      (templateToRegularExpression "/a/\x7bv\x7d").2.2 + 2 :=
  claim10_theorem.2.1 "/a/\x7bv\x7d" "/a/b".data ["/a/b".data, ['b'], []] rfl

/-- Claim C3: a route whose pattern matches the remainder is accepted as a
candidate if and only if the last captured group is "" or "/"; a match
with no submatch yields no candidate; acceptance is exactly membership in
the candidate list of selectRoutes; concretely, against remainder /x/y/z
the route /x/(leftbrace)a(rightbrace) is excluded (its last group is /y/z)
while /x/(leftbrace)a(rightbrace)/(leftbrace)b(rightbrace) is the only
candidate. -/
theorem claim3_theorem :
    (∀ (final : String) (r : Route) (m : List (List Char)),
      findStringSubmatch (toks r.relativePath.data) final.data = some m →
      (perRouteCandidate final r ≠ none ↔
        (m.getLastD [] = [] ∨ m.getLastD [] = ['/']))) ∧
    (∀ (final : String) (r : Route),
      findStringSubmatch (toks r.relativePath.data) final.data = none →
      perRouteCandidate final r = none) ∧
    (∀ (d : Dispatcher) (final : String) (r : Route), r ∈ d.routes →
      ∀ c, perRouteCandidate final r = some c → c ∈ routeCandidates d final) ∧
    (∀ (d : Dispatcher) (final : String) (c : RouteCandidate),
      c ∈ routeCandidates d final → perRouteCandidate final c.route = some c) ∧
    perRouteCandidate "/x/y/z" ⟨"/x/\x7ba\x7d"⟩ = none ∧
    findStringSubmatch (toks "/x/\x7ba\x7d".data) "/x/y/z".data =
      some ["/x/y/z".data, ['y'], "/z".data] ∧
    routeCandidates ⟨"", [⟨"/x/\x7ba\x7d"⟩, ⟨"/x/\x7ba\x7d/\x7bb\x7d"⟩]⟩ "/x/y/z" =
      [⟨⟨"/x/\x7ba\x7d/\x7bb\x7d"⟩, "/x/([^/]+?)/([^/]+?)(/.*)?", 4, 1, 2⟩] := by
  refine ⟨perRouteCandidate_of_match, perRouteCandidate_of_no_match, ?_, ?_,
    rfl, rfl, rfl⟩
  · intro d final r hr c hc
    exact (mem_routeCandidates d final c).mpr ⟨r, hr, hc⟩
  · intro d final c hc
    rcases (mem_routeCandidates d final c).mp hc with ⟨r, hr, hpc⟩
    rw [perRouteCandidate_route final r c hpc]
    exact hpc

/-- Claim C3 (witness): the acceptance criterion applied to the concrete
match of /x/(leftbrace)a(rightbrace) against /x/y/z. -/
theorem claim3_witness :
    perRouteCandidate "/x/y/z" ⟨"/x/\x7ba\x7d"⟩ ≠ none ↔
      ((["/x/y/z".data, ['y'], "/z".data] : List (List Char)).getLastD [] = [] ∨
       (["/x/y/z".data, ['y'], "/z".data] : List (List Char)).getLastD [] = ['/']) :=
  claim3_theorem.1 "/x/y/z" ⟨"/x/\x7ba\x7d"⟩ ["/x/y/z".data, ['y'], "/z".data] rfl

/-- Claim C5: with a non-root remainder and a non-empty candidate set,
selectRoutes returns exactly the routes of the sorted candidates whose
compiled pattern string equals that of the best-ranked (first sorted)
candidate, which no candidate outranks; two routes with byte-identical
patterns are returned together. -/
theorem claim5_theorem :
    (∀ (d : Dispatcher) (final : String), ¬(final = "" ∨ final = "/") →
      routeCandidates d final ≠ [] →
      selectRoutes d final = Except.ok
        (((sortRanked rcLess (routeCandidates d final)).filter
          (fun c => c.regexpression ==
            ((sortRanked rcLess (routeCandidates d final)).headD
              default).regexpression)).map (fun c => c.route)) ∧
      ∀ c ∈ routeCandidates d final,
        rcLess c ((sortRanked rcLess (routeCandidates d final)).headD default) =
          false) ∧
    selectRoutes ⟨"", [⟨"/a/\x7bx\x7d"⟩, ⟨"/a/\x7by\x7d"⟩]⟩ "/a/z" =
      Except.ok [⟨"/a/\x7bx\x7d"⟩, ⟨"/a/\x7by\x7d"⟩] := by
  constructor
  · intro d final h1 h2
    constructor
    · simp only [selectRoutes]
      rw [if_neg h1, if_neg h2]
    · intro c hc
      cases hs : sortRanked rcLess (routeCandidates d final) with
      | nil => exact absurd ((sortRanked_eq_nil_iff _ _).mp hs) h2
      | cons h t =>
        simp only [hs, List.headD_cons]
        exact sortRanked_head_max rcLess (fun a b h3 => rcLess_asymm h3)
          (fun a b c h3 h4 => rcLess_negtrans h3 h4) rcLess_irrefl _ h t hs c hc
  · rfl

/-- Claim C5 (witness): no candidate outranks the best-ranked candidate in
the concrete tie example. -/
theorem claim5_witness :
    rcLess ⟨⟨"/a/\x7bx\x7d"⟩, "/a/([^/]+?)(/.*)?", 3, 1, 1⟩
      ((sortRanked rcLess (routeCandidates
        ⟨"", [⟨"/a/\x7bx\x7d"⟩, ⟨"/a/\x7by\x7d"⟩]⟩ "/a/z")).headD default) =
      false :=
  (claim5_theorem.1 ⟨"", [⟨"/a/\x7bx\x7d"⟩, ⟨"/a/\x7by\x7d"⟩]⟩ "/a/z"
    (by decide) (by decide)).2
    ⟨⟨"/a/\x7bx\x7d"⟩, "/a/([^/]+?)(/.*)?", 3, 1, 1⟩ (by decide)

/-- Claim C6: a dispatcher is accepted as a candidate on any successful
match of its root template, whatever the captured remainder holds (there
is no emptiness filter and no short-circuit for the empty path), and when
candidates exist detectDispatcher returns the single best-ranked
candidate's dispatcher paired with its captured remainder. -/
theorem claim6_theorem :
    (∀ (p : String) (e : Dispatcher) (m : List (List Char)),
      findStringSubmatch (toks e.rootPath.data) p.data = some m →
      perDispatcherCandidate p e = some ⟨e, String.mk (m.getLastD []), m.length,
        (templateToRegularExpression e.rootPath).2.1,
        (templateToRegularExpression e.rootPath).2.2⟩) ∧
    (∀ (p : String) (e : Dispatcher),
      findStringSubmatch (toks e.rootPath.data) p.data = none →
      perDispatcherCandidate p e = none) ∧
    (∀ (p : String) (ds : List Dispatcher), dispatcherCandidates p ds ≠ [] →
      detectDispatcher p ds = Except.ok
        (((sortRanked dcLess (dispatcherCandidates p ds)).headD
            default).dispatcher,
         ((sortRanked dcLess (dispatcherCandidates p ds)).headD
            default).finalMatch) ∧
      ∀ c ∈ dispatcherCandidates p ds,
        dcLess c ((sortRanked dcLess (dispatcherCandidates p ds)).headD default) =
          false) ∧
    detectDispatcher "/a/b/c" [⟨"/a", []⟩] = Except.ok (⟨"/a", []⟩, "/b/c") ∧
    detectDispatcher "" [⟨"/a", []⟩] = Except.error "not found" := by
  refine ⟨perDispatcherCandidate_of_match, perDispatcherCandidate_of_no_match,
    ?_, rfl, rfl⟩
  intro p ds h2
  constructor
  · simp only [detectDispatcher]
    rw [if_neg h2]
  · intro c hc
    cases hs : sortRanked dcLess (dispatcherCandidates p ds) with
    | nil => exact absurd ((sortRanked_eq_nil_iff _ _).mp hs) h2
    | cons h t =>
      simp only [hs, List.headD_cons]
      exact sortRanked_head_max dcLess (fun a b h3 => dcLess_asymm h3)
        (fun a b c h3 h4 => dcLess_negtrans h3 h4) dcLess_irrefl _ h t hs c hc

/-- Claim C6 (witness): the dispatcher with root /a is accepted for path
/a/b/c even though the captured remainder /b/c is neither empty nor a
slash. -/
theorem claim6_witness :
    perDispatcherCandidate "/a/b/c" ⟨"/a", []⟩ =
      some ⟨⟨"/a", []⟩,
        String.mk ((["/a/b/c".data, "/b/c".data] :
          List (List Char)).getLastD []),
        (["/a/b/c".data, "/b/c".data] : List (List Char)).length,
        (templateToRegularExpression "/a").2.1,
        (templateToRegularExpression "/a").2.2⟩ :=
  claim6_theorem.1 "/a/b/c" ⟨"/a", []⟩ ["/a/b/c".data, "/b/c".data] rfl

/-- Claim C7: with a non-root remainder, selectRoutes fails exactly when
its candidate set is empty, detectDispatcher fails exactly when no
dispatcher matches (in particular over the empty dispatcher list), and
the only error either selector ever returns is "not found". -/
theorem claim7_theorem :
    (∀ (d : Dispatcher) (final : String), ¬(final = "" ∨ final = "/") →
      (selectRoutes d final = Except.error "not found" ↔
        routeCandidates d final = [])) ∧
    (∀ (d : Dispatcher) (final : String) (e : String),
      selectRoutes d final = Except.error e → e = "not found") ∧
    (∀ (p : String) (ds : List Dispatcher),
      (detectDispatcher p ds = Except.error "not found" ↔
        dispatcherCandidates p ds = [])) ∧
    (∀ (p : String) (ds : List Dispatcher) (e : String),
      detectDispatcher p ds = Except.error e → e = "not found") ∧
    (∀ p : String, detectDispatcher p ([] : List Dispatcher) =
      Except.error "not found") := by
  refine ⟨?_, ?_, ?_, ?_, ?_⟩
  · intro d final h1
    simp only [selectRoutes]
    rw [if_neg h1]
    by_cases h2 : routeCandidates d final = [] <;> simp [h2]
  · intro d final e h
    simp only [selectRoutes] at h
    split at h
    · cases h
    · split at h
      · injection h with h2
        exact h2.symm
      · cases h
  · intro p ds
    simp only [detectDispatcher]
    by_cases h2 : dispatcherCandidates p ds = [] <;> simp [h2]
  · intro p ds e h
    simp only [detectDispatcher] at h
    split at h
    · injection h with h2
      exact h2.symm
    · cases h
  · intro p
    rfl

/-- Claim C7 (witness): a dispatcher whose single route does not match the
remainder /q yields the not-found error. -/
theorem claim7_witness :
    selectRoutes ⟨"", [⟨"/a"⟩]⟩ "/q" = Except.error "not found" :=
  (claim7_theorem.1 ⟨"", [⟨"/a"⟩]⟩ "/q" (by decide)).mpr (by decide)
